import Mathlib

/-!
Verification of the grouping/partitioning logic of the `Groups` module
(`cellprofiler/modules/groups.py`) and of per-group aggregation and division
in the `RescaleIntensity` module (`cellprofiler/modules/rescaleintensity.py`).

Python's `sorted` on tuples of strings compares tuples lexicographically and
strings by code points.  We embed that comparison as a boolean comparator
`lexLtB` over lists, instantiated at `Char` (code-point order) to compare
strings and then at `String` to compare grouping-key tuples.
-/

namespace CP

instance {ε α : Type} [DecidableEq ε] [DecidableEq α] : DecidableEq (Except ε α) :=
  fun a b =>
    match a, b with
    | .error e₁, .error e₂ =>
      if h : e₁ = e₂ then isTrue (by rw [h])
      else isFalse (fun hc => h (Except.error.inj hc))
    | .error _, .ok _ => isFalse (fun hc => Except.noConfusion hc)
    | .ok _, .error _ => isFalse (fun hc => Except.noConfusion hc)
    | .ok a₁, .ok a₂ =>
      if h : a₁ = a₂ then isTrue (by rw [h])
      else isFalse (fun hc => h (Except.ok.inj hc))

/-- Lexicographic strict order on lists, lifted from a boolean strict order on
elements; mirrors Python sequence comparison. -/
def lexLtB {α : Type} (lt : α → α → Bool) [DecidableEq α] : List α → List α → Bool
  | [], [] => false
  | [], _ :: _ => true
  | _ :: _, [] => false
  | a :: as, b :: bs => lt a b || (decide (a = b) && lexLtB lt as bs)

section LexLemmas

variable {α : Type} (lt : α → α → Bool) [DecidableEq α]

theorem lexLtB_irrefl (hIrr : ∀ a, lt a a = false) :
    ∀ l : List α, lexLtB lt l l = false := by
  intro l
  induction l with
  | nil => rfl
  | cons a as ih => simp [lexLtB, hIrr a, ih]

theorem lexLtB_trans
    (hTr : ∀ a b c, lt a b = true → lt b c = true → lt a c = true) :
    ∀ l₁ l₂ l₃ : List α,
      lexLtB lt l₁ l₂ = true → lexLtB lt l₂ l₃ = true → lexLtB lt l₁ l₃ = true := by
  intro l₁
  induction l₁ with
  | nil =>
    intro l₂ l₃ h12 h23
    cases l₂ with
    | nil => exact h23
    | cons b bs =>
      cases l₃ with
      | nil => simp [lexLtB] at h23
      | cons c cs => rfl
  | cons a as ih =>
    intro l₂ l₃ h12 h23
    cases l₂ with
    | nil => simp [lexLtB] at h12
    | cons b bs =>
      cases l₃ with
      | nil => simp [lexLtB] at h23
      | cons c cs =>
        simp only [lexLtB, Bool.or_eq_true, Bool.and_eq_true, decide_eq_true_eq] at h12 h23 ⊢
        rcases h12 with h12 | ⟨hab, h12⟩
        · rcases h23 with h23 | ⟨hbc, h23⟩
          · exact Or.inl (hTr a b c h12 h23)
          · subst hbc; exact Or.inl h12
        · subst hab
          rcases h23 with h23 | ⟨hbc, h23⟩
          · exact Or.inl h23
          · subst hbc; exact Or.inr ⟨rfl, ih bs cs h12 h23⟩

theorem lexLtB_asymm
    (hIrr : ∀ a, lt a a = false)
    (hAs : ∀ a b, lt a b = true → lt b a = false) :
    ∀ l₁ l₂ : List α, lexLtB lt l₁ l₂ = true → lexLtB lt l₂ l₁ = false := by
  intro l₁
  induction l₁ with
  | nil =>
    intro l₂ h
    cases l₂ with
    | nil => simp [lexLtB] at h
    | cons b bs => rfl
  | cons a as ih =>
    intro l₂ h
    cases l₂ with
    | nil => simp [lexLtB] at h
    | cons b bs =>
      simp only [lexLtB, Bool.or_eq_true, Bool.and_eq_true, decide_eq_true_eq] at h
      simp only [lexLtB, Bool.or_eq_false_iff, Bool.and_eq_false_iff,
        decide_eq_false_iff_not]
      rcases h with h | ⟨hab, h⟩
      · refine ⟨hAs a b h, Or.inl ?_⟩
        intro hba
        rw [hba, hIrr a] at h
        exact Bool.noConfusion h
      · subst hab
        exact ⟨hIrr a, Or.inr (ih bs h)⟩

theorem lexLtB_eq_of_not_lt
    (hConn : ∀ a b, lt a b = false → lt b a = false → a = b) :
    ∀ l₁ l₂ : List α, lexLtB lt l₁ l₂ = false → lexLtB lt l₂ l₁ = false → l₁ = l₂ := by
  intro l₁
  induction l₁ with
  | nil =>
    intro l₂ h12 h21
    cases l₂ with
    | nil => rfl
    | cons b bs => simp [lexLtB] at h12
  | cons a as ih =>
    intro l₂ h12 h21
    cases l₂ with
    | nil => simp [lexLtB] at h21
    | cons b bs =>
      simp only [lexLtB, Bool.or_eq_false_iff, Bool.and_eq_false_iff,
        decide_eq_false_iff_not] at h12 h21
      have hab : a = b := hConn a b h12.1 h21.1
      subst hab
      have : lexLtB lt as bs = false := by
        rcases h12.2 with h | h
        · exact absurd rfl h
        · exact h
      have that : lexLtB lt bs as = false := by
        rcases h21.2 with h | h
        · exact absurd rfl h
        · exact h
      rw [ih bs this that]

end LexLemmas

/-- Code-point comparison of characters, as Python compares string elements. -/
def charLtB (a b : Char) : Bool := decide (a < b)

theorem charLtB_irrefl (a : Char) : charLtB a a = false := by
  simp [charLtB]

theorem charLtB_trans (a b c : Char) (h₁ : charLtB a b = true) (h₂ : charLtB b c = true) :
    charLtB a c = true := by
  simp only [charLtB, decide_eq_true_eq] at h₁ h₂ ⊢
  exact Char.lt_trans h₁ h₂

theorem charLtB_asymm (a b : Char) (h : charLtB a b = true) : charLtB b a = false := by
  simp only [charLtB, decide_eq_true_eq, decide_eq_false_iff_not] at h ⊢
  exact Char.lt_asymm h

theorem charLtB_conn (a b : Char) (h₁ : charLtB a b = false) (h₂ : charLtB b a = false) :
    a = b := by
  simp only [charLtB, decide_eq_false_iff_not, Char.not_lt] at h₁ h₂
  exact Char.ext (UInt32.le_antisymm h₂ h₁)

/-- String comparison by code points, as Python compares strings. -/
def strLtB (a b : String) : Bool := lexLtB charLtB a.data b.data

theorem strLtB_irrefl (a : String) : strLtB a a = false :=
  lexLtB_irrefl charLtB charLtB_irrefl a.data

theorem strLtB_trans (a b c : String) (h₁ : strLtB a b = true) (h₂ : strLtB b c = true) :
    strLtB a c = true :=
  lexLtB_trans charLtB charLtB_trans a.data b.data c.data h₁ h₂

theorem strLtB_asymm (a b : String) (h : strLtB a b = true) : strLtB b a = false :=
  lexLtB_asymm charLtB charLtB_irrefl charLtB_asymm a.data b.data h

theorem strLtB_conn (a b : String) (h₁ : strLtB a b = false) (h₂ : strLtB b a = false) :
    a = b :=
  String.ext (lexLtB_eq_of_not_lt charLtB charLtB_conn a.data b.data h₁ h₂)

/-- Tuple comparison of grouping keys, as Python compares tuples of strings. -/
def keyLtB (a b : List String) : Bool := lexLtB strLtB a b

theorem keyLtB_irrefl (a : List String) : keyLtB a a = false :=
  lexLtB_irrefl strLtB strLtB_irrefl a

theorem keyLtB_trans (a b c : List String) (h₁ : keyLtB a b = true) (h₂ : keyLtB b c = true) :
    keyLtB a c = true :=
  lexLtB_trans strLtB strLtB_trans a b c h₁ h₂

theorem keyLtB_asymm (a b : List String) (h : keyLtB a b = true) : keyLtB b a = false :=
  lexLtB_asymm strLtB strLtB_irrefl strLtB_asymm a b h

theorem keyLtB_conn (a b : List String) (h₁ : keyLtB a b = false) (h₂ : keyLtB b a = false) :
    a = b :=
  lexLtB_eq_of_not_lt strLtB strLtB_conn a b h₁ h₂

theorem keyLtB_total_le (a b : List String) :
    keyLtB b a = false ∨ keyLtB a b = false := by
  cases h : keyLtB b a with
  | false => exact Or.inl rfl
  | true => exact Or.inr (keyLtB_asymm b a h)

theorem keyLtB_le_trans {a b c : List String}
    (h₁ : keyLtB b a = false) (h₂ : keyLtB c b = false) : keyLtB c a = false := by
  cases hab : keyLtB a b with
  | false =>
    have hba : a = b := keyLtB_conn a b hab h₁
    rw [← hba] at h₂
    exact h₂
  | true =>
    cases hca : keyLtB c a with
    | false => rfl
    | true =>
      have h := keyLtB_trans c a b hca hab
      rw [h₂] at h
      exact Bool.noConfusion h

/-- One image-set record: its 1-based image number and its metadata mapping
(metadata feature name, string value). -/
structure Record where
  imageNumber : Nat
  metadata : List (String × String)
deriving DecidableEq

/-- Whether the record carries a value for metadata key `k`. -/
def Record.hasKey (r : Record) (k : String) : Bool :=
  (r.metadata.lookup k).isSome

/-- Modelled from the spec: `Measurements.get_feature_names` is not among the
source files; per spec section 4.1 a grouping key is valid exactly when it
exists as a metadata field on every record. -/
def featureOnAll (records : List Record) (k : String) : Bool :=
  records.all (fun r => r.hasKey k)

/-- GroupKey of a record: the tuple of its metadata values for the configured
keys, in configured order (spec section 3). -/
def recordKey (keys : List String) (r : Record) : List String :=
  keys.map (fun k => ((r.metadata.lookup k).getD ""))

/-- Modelled from the spec: `Measurements.get_groupings` is not among the
source files; per spec section 4.1 it yields, for each distinct GroupKey, the
pair (key tuple, image numbers of the member records in arrival order). -/
def mkGroupings (records : List Record) (keys : List String) :
    List (List String × List Nat) :=
  ((records.map (recordKey keys)).dedup).map
    (fun kv =>
      (kv, (records.filter (fun r => decide (recordKey keys r = kv))).map
        Record.imageNumber))

/-- Failure modes of the partition path of `Groups.prepare_run`:
`configurationError` is `get_groupings` returning None on a missing grouping
key, upon which `prepare_run` reports failure (groups.py:356-358, 395-396);
`emptyInput` is `np.hstack` raising on the empty grouping list produced by an
empty record set (groups.py:405). -/
inductive GroupsFailure
  | configurationError
  | emptyInput
deriving DecidableEq

/-- Embedding of `Groups.get_groupings` (groups.py:337-359) with grouping
enabled: None when some configured key is not a metadata feature. -/
def getGroupings (records : List Record) (keys : List String) :
    Option (List (List String × List Nat)) :=
  if keys.all (fun k => featureOnAll records k) then some (mkGroupings records keys)
  else none

/-- Comparison used by Python `sorted(groupings)` (groups.py:401): pairs are
ordered by their key tuple (key tuples are distinct across groups, so the
member lists never decide the comparison). -/
def grpLe (a b : List String × List Nat) : Prop := keyLtB b.1 a.1 = false

instance : DecidableRel grpLe := fun _ _ => instDecidableEqBool _ _

instance : IsTotal (List String × List Nat) grpLe :=
  ⟨fun a b => keyLtB_total_le a.1 b.1⟩

instance : IsTrans (List String × List Nat) grpLe :=
  ⟨fun _ _ _ h₁ h₂ => keyLtB_le_trans h₁ h₂⟩

/-- Python `sorted(groupings)` (groups.py:401), a stable sort. -/
def sortGroupings (gs : List (List String × List Nat)) :
    List (List String × List Nat) :=
  List.insertionSort grpLe gs

/-- The groupings of the record set, sorted by key (groups.py:394-401). -/
def sortedGroupings (records : List Record) (keys : List String) :
    List (List String × List Nat) :=
  sortGroupings (mkGroupings records keys)

/-- Blocks `np.ones(len(image_numbers), int) * (i + 1)` concatenated by
`np.hstack` (groups.py:405-407), with the enumeration index threaded. -/
def groupNumbersFrom : Nat → List (List String × List Nat) → List Nat
  | _, [] => []
  | i, g :: gs => List.replicate g.2.length (i + 1) ++ groupNumbersFrom (i + 1) gs

/-- The group-number array of groups.py:405-407. -/
def groupNumbersArr (gs : List (List String × List Nat)) : List Nat :=
  groupNumbersFrom 0 gs

/-- Blocks `np.arange(len(image_numbers)) + 1` concatenated by `np.hstack`
(groups.py:408-410). -/
def groupIndexesArr : List (List String × List Nat) → List Nat
  | [] => []
  | g :: gs => (List.range g.2.length).map (· + 1) ++ groupIndexesArr gs

/-- The image-number array `np.hstack([image_numbers ...])`
(groups.py:411-412). -/
def imageNumbersArr (gs : List (List String × List Nat)) : List Nat :=
  (gs.map Prod.snd).flatten

/-- Sort key of `np.lexsort((group_indexes, group_numbers))` (groups.py:413):
group number primary, group index secondary, original position as the stable
tie-break. -/
def lexsortLe (gn gi : List Nat) (a b : Nat) : Prop :=
  gn.getD a 0 < gn.getD b 0 ∨
    (gn.getD a 0 = gn.getD b 0 ∧
      (gi.getD a 0 < gi.getD b 0 ∨ (gi.getD a 0 = gi.getD b 0 ∧ a ≤ b)))

instance (gn gi : List Nat) : DecidableRel (lexsortLe gn gi) := fun a b => by
  unfold lexsortLe
  infer_instance

/-- The argsort produced by `np.lexsort` (groups.py:413). -/
def lexsortOrder (gn gi : List Nat) : List Nat :=
  List.insertionSort (lexsortLe gn gi) (List.range gn.length)

/-- The partition outcome: the canonical ordering of image numbers and the
group number / group index array laid out in that order. -/
structure PartitionResult where
  ordering : List Nat
  groupNumbers : List Nat
  groupIndexes : List Nat
deriving DecidableEq

/-- Embedding of the partition computation of `Groups.prepare_run`
(groups.py:394-415): sort the groupings by key, build the three arrays, and
permute each by the lexsort order; `ordering` is `image_numbers[order]`, the
sequence written into `new_image_numbers` (groups.py:423-424). -/
def partitionCore (records : List Record) (keys : List String) : PartitionResult :=
  let gs := sortedGroupings records keys
  let gn := groupNumbersArr gs
  let gi := groupIndexesArr gs
  let im := imageNumbersArr gs
  let ord := lexsortOrder gn gi
  { ordering := ord.map (fun i => im.getD i 0)
    groupNumbers := ord.map (fun i => gn.getD i 0)
    groupIndexes := ord.map (fun i => gi.getD i 0) }

/-- Snapshot of the measurements store, as far as the Groups module touches
it: the image-set records in storage order plus the per-image group number and
group index columns and the experiment grouping tags. -/
structure Measurements where
  records : List Record
  groupNumbers : List Nat
  groupIndexes : List Nat
  groupingTags : List String
deriving DecidableEq

/-- Modelled from the spec: `Measurements.reorder_image_measurements` is not
among the source files; `new_image_numbers` maps each old image number to its
1-based position in the canonical ordering (groups.py:423-425), so the store
ends up with the records rearranged into that order and renumbered 1..N. -/
def reorderRecords (records : List Record) (ordering : List Nat) : List Record :=
  ((ordering.filterMap (fun n => records.find? (fun r => r.imageNumber == n))).enum).map
    (fun jr => { jr.2 with imageNumber := jr.1 + 1 })

/-- Embedding of `Groups.prepare_run` on the grouping-enabled, non-batch path
(groups.py:386-429), including its writes to the measurements store
(reorder_image_measurements, add_all_measurements, set_grouping_tags at
groups.py:417-428). -/
def prepareRun (m : Measurements) (keys : List String) :
    Except GroupsFailure Measurements :=
  match getGroupings m.records keys with
  | none => .error .configurationError
  | some gs =>
    if gs.isEmpty then .error .emptyInput
    else
      let res := partitionCore m.records keys
      .ok { records := reorderRecords m.records res.ordering
            groupNumbers := res.groupNumbers
            groupIndexes := res.groupIndexes
            groupingTags := keys }

theorem length_groupNumbersFrom (gs : List (List String × List Nat)) :
    ∀ i, (groupNumbersFrom i gs).length = (gs.map (fun g => g.2.length)).sum := by
  induction gs with
  | nil => intro i; rfl
  | cons g gs ih => intro i; simp [groupNumbersFrom, ih]

theorem length_groupIndexesArr (gs : List (List String × List Nat)) :
    (groupIndexesArr gs).length = (gs.map (fun g => g.2.length)).sum := by
  induction gs with
  | nil => rfl
  | cons g gs ih => simp [groupIndexesArr, ih]

theorem length_imageNumbersArr (gs : List (List String × List Nat)) :
    (imageNumbersArr gs).length = (gs.map (fun g => g.2.length)).sum := by
  rw [imageNumbersArr, List.length_flatten, List.map_map]
  rfl

theorem le_of_mem_groupNumbersFrom :
    ∀ (gs : List (List String × List Nat)) (i n : Nat),
      n ∈ groupNumbersFrom i gs → i + 1 ≤ n := by
  intro gs
  induction gs with
  | nil =>
    intro i n h
    simp [groupNumbersFrom] at h
  | cons g gs ih =>
    intro i n h
    rw [groupNumbersFrom, List.mem_append] at h
    rcases h with h | h
    · rw [List.mem_replicate] at h
      omega
    · have := ih (i + 1) n h
      omega

theorem pairwise_zip_gn_gi :
    ∀ (gs : List (List String × List Nat)) (i : Nat),
      List.Pairwise (fun p q : Nat × Nat => p.1 < q.1 ∨ (p.1 = q.1 ∧ p.2 ≤ q.2))
        ((groupNumbersFrom i gs).zip (groupIndexesArr gs)) := by
  intro gs
  induction gs with
  | nil =>
    intro i
    simp [groupNumbersFrom, groupIndexesArr]
  | cons g gs ih =>
    intro i
    rw [groupNumbersFrom, groupIndexesArr, List.zip_append (by simp)]
    rw [List.pairwise_append]
    refine ⟨?_, ih (i + 1), ?_⟩
    · rw [List.pairwise_iff_getElem]
      intro a b ha hb hab
      simp [List.getElem_zip, List.getElem_replicate, List.getElem_map,
        List.getElem_range]
      omega
    · rintro ⟨p₁, p₂⟩ hp ⟨q₁, q₂⟩ hq
      have hp₁ : p₁ ∈ List.replicate g.2.length (i + 1) := (List.of_mem_zip hp).1
      have hq₁ : q₁ ∈ groupNumbersFrom (i + 1) gs := (List.of_mem_zip hq).1
      rw [List.mem_replicate] at hp₁
      have := le_of_mem_groupNumbersFrom gs (i + 1) q₁ hq₁
      exact Or.inl (by omega)

theorem lexsortOrder_eq_range (gn gi : List Nat)
    (hpw : List.Pairwise (fun p q : Nat × Nat => p.1 < q.1 ∨ (p.1 = q.1 ∧ p.2 ≤ q.2))
      (gn.zip gi))
    (hlen : gi.length = gn.length) :
    lexsortOrder gn gi = List.range gn.length := by
  apply List.Sorted.insertionSort_eq
  rw [List.Sorted, List.pairwise_iff_getElem]
  intro a b ha hb hab
  simp only [List.length_range] at ha hb
  rw [List.getElem_range, List.getElem_range]
  have hza : a < (gn.zip gi).length := by
    rw [List.length_zip]
    omega
  have hzb : b < (gn.zip gi).length := by
    rw [List.length_zip]
    omega
  have hz := List.pairwise_iff_getElem.mp hpw a b hza hzb hab
  rw [List.getElem_zip, List.getElem_zip] at hz
  unfold lexsortLe
  rw [List.getD_eq_getElem gn 0 ha, List.getD_eq_getElem gn 0 hb,
    List.getD_eq_getElem gi 0 (by omega), List.getD_eq_getElem gi 0 (by omega)]
  rcases hz with h₁ | ⟨h₁, h₂⟩
  · exact Or.inl h₁
  · omega

theorem map_getD_range {α : Type} (l : List α) (d : α) :
    (List.range l.length).map (fun i => l.getD i d) = l := by
  apply List.ext_getElem
  · simp
  · intro n h₁ h₂
    simp only [List.getElem_map, List.getElem_range]
    exact List.getD_eq_getElem l d h₂

theorem partitionCore_eq (records : List Record) (keys : List String) :
    partitionCore records keys =
      { ordering := imageNumbersArr (sortedGroupings records keys)
        groupNumbers := groupNumbersArr (sortedGroupings records keys)
        groupIndexes := groupIndexesArr (sortedGroupings records keys) } := by
  have hgi : (groupIndexesArr (sortedGroupings records keys)).length =
      (groupNumbersArr (sortedGroupings records keys)).length := by
    rw [length_groupIndexesArr, groupNumbersArr, length_groupNumbersFrom]
  have him : (imageNumbersArr (sortedGroupings records keys)).length =
      (groupNumbersArr (sortedGroupings records keys)).length := by
    rw [length_imageNumbersArr, groupNumbersArr, length_groupNumbersFrom]
  have hord : lexsortOrder (groupNumbersArr (sortedGroupings records keys))
      (groupIndexesArr (sortedGroupings records keys)) =
      List.range (groupNumbersArr (sortedGroupings records keys)).length :=
    lexsortOrder_eq_range _ _ (pairwise_zip_gn_gi _ 0) hgi
  unfold partitionCore
  simp only [hord]
  congr 1
  · rw [← him, map_getD_range]
  · rw [map_getD_range]
  · rw [← hgi, map_getD_range]

theorem key_of_mem_fiber {records : List Record} {keys kv : List String} {r : Record}
    (h : r ∈ records.filter (fun x => decide (recordKey keys x = kv))) :
    recordKey keys r = kv := by
  rw [List.mem_filter] at h
  exact of_decide_eq_true h.2

theorem filter_disjoint_append_perm {α : Type} (p q : α → Bool) (xs : List α)
    (hd : ∀ x, ¬(p x = true ∧ q x = true)) :
    (xs.filter p ++ xs.filter q).Perm (xs.filter (fun x => p x || q x)) := by
  induction xs with
  | nil => simp
  | cons x xs ih =>
    cases hp : p x with
    | true =>
      have hq : q x = false := by
        cases hq : q x with
        | false => rfl
        | true => exact absurd ⟨hp, hq⟩ (hd x)
      simp only [List.filter_cons, hp, hq, Bool.true_or, if_true, if_false,
        Bool.false_eq_true, List.cons_append]
      exact ih.cons x
    | false =>
      cases hq : q x with
      | true =>
        simp only [List.filter_cons, hp, hq, Bool.false_or, if_true, if_false,
          Bool.false_eq_true]
        exact List.perm_middle.trans (ih.cons x)
      | false =>
        simp only [List.filter_cons, hp, hq, Bool.false_or, if_false,
          Bool.false_eq_true]
        exact ih

theorem fibers_flatten_perm_filter {α κ : Type} [DecidableEq κ] (f : α → κ) :
    ∀ (ks : List κ) (xs : List α), ks.Nodup →
      ((ks.map (fun kv => xs.filter (fun x => decide (f x = kv)))).flatten).Perm
        (xs.filter (fun x => ks.any (fun kv => decide (f x = kv)))) := by
  intro ks
  induction ks with
  | nil =>
    intro xs _
    simp
  | cons k ks ih =>
    intro xs hnd
    rw [List.map_cons, List.flatten_cons]
    have hk : k ∉ ks := (List.nodup_cons.mp hnd).1
    have ihx := ih xs (List.nodup_cons.mp hnd).2
    have hd : ∀ x, ¬(decide (f x = k) = true ∧
        ks.any (fun kv => decide (f x = kv)) = true) := by
      intro x hx
      obtain ⟨kv, hkv, hfx⟩ := List.any_eq_true.mp hx.2
      have h₁ : f x = k := of_decide_eq_true hx.1
      have h₂ : f x = kv := of_decide_eq_true hfx
      exact hk (h₁ ▸ h₂ ▸ hkv)
    have hcong : xs.filter
        (fun x => decide (f x = k) || ks.any (fun kv => decide (f x = kv))) =
        xs.filter (fun x => (k :: ks).any (fun kv => decide (f x = kv))) := by
      apply List.filter_congr
      intro x _
      rw [List.any_cons]
    rw [← hcong]
    exact (ihx.append_left _).trans (filter_disjoint_append_perm _ _ xs hd)

theorem fibers_flatten_perm (records : List Record) (keys : List String) :
    ((((records.map (recordKey keys)).dedup).map
        (fun kv => records.filter (fun x => decide (recordKey keys x = kv)))).flatten).Perm
      records := by
  have h₁ := fibers_flatten_perm_filter (recordKey keys)
    ((records.map (recordKey keys)).dedup) records (List.nodup_dedup _)
  refine h₁.trans ?_
  rw [List.filter_eq_self.mpr]
  intro r hr
  exact List.any_eq_true.mpr
    ⟨recordKey keys r, List.mem_dedup.mpr (List.mem_map_of_mem _ hr), decide_eq_true rfl⟩

theorem imageNumbersArr_mkGroupings_perm (records : List Record) (keys : List String) :
    (imageNumbersArr (mkGroupings records keys)).Perm
      (records.map Record.imageNumber) := by
  rw [imageNumbersArr, mkGroupings, List.map_map]
  have hcomp : (Prod.snd ∘ fun kv =>
      (kv, (records.filter (fun x => decide (recordKey keys x = kv))).map
        Record.imageNumber)) =
      (List.map Record.imageNumber ∘
        fun kv => records.filter (fun x => decide (recordKey keys x = kv))) := rfl
  rw [hcomp, ← List.map_map, ← List.map_flatten]
  exact (fibers_flatten_perm records keys).map Record.imageNumber

theorem imageNumbersArr_sortGroupings_perm (gs : List (List String × List Nat)) :
    (imageNumbersArr (sortGroupings gs)).Perm (imageNumbersArr gs) :=
  ((List.perm_insertionSort grpLe gs).map Prod.snd).flatten

/-- C1: for every non-empty record set and every list of grouping keys, the
ordering produced by the partition computation of `Groups.prepare_run`
(image_numbers permuted into group-major, index-minor layout) is a permutation
of the input record identifiers: nothing is lost, duplicated or created. -/
theorem ordering_perm_imageNumbers (records : List Record) (keys : List String)
    (hne : records ≠ []) :
    (partitionCore records keys).ordering.Perm (records.map Record.imageNumber) := by
  have _h := hne
  rw [partitionCore_eq]
  exact (imageNumbersArr_sortGroupings_perm _).trans
    (imageNumbersArr_mkGroupings_perm records keys)

/-- Records of the worked example in the spec (section 8):
[(id=1,row=A),(id=2,row=B),(id=3,row=A)]. -/
def exRecords : List Record :=
  [⟨1, [("row", "A")]⟩, ⟨2, [("row", "B")]⟩, ⟨3, [("row", "A")]⟩]

/-- Witness for C1 at the spec's worked example. -/
theorem ordering_perm_imageNumbers_witness :
    exRecords ≠ [] ∧
      (partitionCore exRecords ["row"]).ordering.Perm
        (exRecords.map Record.imageNumber) :=
  ⟨by decide, ordering_perm_imageNumbers exRecords ["row"] (by decide)⟩

theorem map_fst_mkGroupings (records : List Record) (keys : List String) :
    (mkGroupings records keys).map Prod.fst = (records.map (recordKey keys)).dedup := by
  rw [mkGroupings, List.map_map]
  exact List.map_id _

theorem snd_of_mem_mkGroupings {records : List Record} {keys : List String}
    {g : List String × List Nat} (hg : g ∈ mkGroupings records keys) :
    g.2 = (records.filter (fun x => decide (recordKey keys x = g.1))).map
        Record.imageNumber ∧
      g.1 ∈ (records.map (recordKey keys)).dedup := by
  obtain ⟨kv, hkv, hEq⟩ := List.mem_map.mp hg
  rw [← hEq]
  exact ⟨rfl, hkv⟩

theorem snd_ne_nil_of_mem_mkGroupings {records : List Record} {keys : List String}
    {g : List String × List Nat} (hg : g ∈ mkGroupings records keys) :
    g.2 ≠ [] := by
  obtain ⟨hsnd, hfst⟩ := snd_of_mem_mkGroupings hg
  obtain ⟨r, hr, hrk⟩ := List.mem_map.mp (List.mem_dedup.mp hfst)
  have hmem : r ∈ records.filter (fun x => decide (recordKey keys x = g.1)) :=
    List.mem_filter.mpr ⟨hr, decide_eq_true hrk⟩
  rw [hsnd]
  exact List.ne_nil_of_mem (List.mem_map_of_mem _ hmem)

theorem mem_sortedGroupings_iff {records : List Record} {keys : List String}
    {g : List String × List Nat} :
    g ∈ sortedGroupings records keys ↔ g ∈ mkGroupings records keys :=
  (List.perm_insertionSort grpLe (mkGroupings records keys)).mem_iff

theorem mem_groupNumbersFrom_iff :
    ∀ (gs : List (List String × List Nat)) (i : Nat),
      (∀ g ∈ gs, g.2 ≠ []) →
      ∀ n, n ∈ groupNumbersFrom i gs ↔ i + 1 ≤ n ∧ n ≤ i + gs.length := by
  intro gs
  induction gs with
  | nil =>
    intro i _ n
    simp [groupNumbersFrom]
    omega
  | cons g gs ih =>
    intro i h n
    have hne : g.2.length ≠ 0 := by
      have hx := h g (List.mem_cons_self g gs)
      simpa [List.length_eq_zero] using hx
    rw [groupNumbersFrom, List.mem_append, List.mem_replicate,
      ih (i + 1) (fun x hx => h x (List.mem_cons_of_mem _ hx)) n, List.length_cons]
    omega

theorem sortedGroupings_sorted (records : List Record) (keys : List String) :
    (sortedGroupings records keys).Pairwise grpLe :=
  List.sorted_insertionSort grpLe (mkGroupings records keys)

theorem map_fst_sortedGroupings_perm (records : List Record) (keys : List String) :
    ((sortedGroupings records keys).map Prod.fst).Perm
      ((records.map (recordKey keys)).dedup) := by
  rw [← map_fst_mkGroupings records keys]
  exact (List.perm_insertionSort grpLe (mkGroupings records keys)).map Prod.fst

theorem map_fst_sortedGroupings_nodup (records : List Record) (keys : List String) :
    ((sortedGroupings records keys).map Prod.fst).Nodup :=
  (map_fst_sortedGroupings_perm records keys).symm.nodup (List.nodup_dedup _)

theorem map_fst_sortedGroupings_pairwise (records : List Record) (keys : List String) :
    ((sortedGroupings records keys).map Prod.fst).Pairwise
      (fun a b => keyLtB a b = true) := by
  have hle : (sortedGroupings records keys).Pairwise
      (fun a b : List String × List Nat => keyLtB b.1 a.1 = false) :=
    sortedGroupings_sorted records keys
  have hnd := map_fst_sortedGroupings_nodup records keys
  have hne : (sortedGroupings records keys).Pairwise
      (fun a b : List String × List Nat => a.1 ≠ b.1) :=
    List.pairwise_map.mp hnd
  rw [List.pairwise_map]
  refine (hle.and hne).imp ?_
  intro a b hab
  cases hlt : keyLtB a.1 b.1 with
  | true => rfl
  | false => exact absurd (keyLtB_conn _ _ hlt hab.1) hab.2

/-- C2: group numbers are assigned by sorting the distinct GroupKey tuples
lexicographically (tuple comparison, element-wise string comparison) and
numbering 1, 2, ... in that order: the keys of the sorted groupings are
strictly ascending in the tuple order, are exactly the distinct GroupKeys of
the input, and the group-number array emitted by the partition computation
covers exactly the dense range {1..G} for G the number of distinct GroupKeys
(so distinct keys receive distinct group numbers). -/
theorem groupNumbers_sorted_dense (records : List Record) (keys : List String) :
    ((sortedGroupings records keys).map Prod.fst).Pairwise
        (fun a b => keyLtB a b = true) ∧
      ((sortedGroupings records keys).map Prod.fst).Perm
        ((records.map (recordKey keys)).dedup) ∧
      ∀ n, n ∈ (partitionCore records keys).groupNumbers ↔
        1 ≤ n ∧ n ≤ ((records.map (recordKey keys)).dedup).length := by
  refine ⟨map_fst_sortedGroupings_pairwise records keys,
    map_fst_sortedGroupings_perm records keys, ?_⟩
  · intro n
    have hlen : (sortedGroupings records keys).length =
        ((records.map (recordKey keys)).dedup).length := by
      have h₁ := (map_fst_sortedGroupings_perm records keys).length_eq
      rw [List.length_map] at h₁
      exact h₁
    rw [partitionCore_eq]
    have hmem := mem_groupNumbersFrom_iff (sortedGroupings records keys) 0
      (fun g hg =>
        snd_ne_nil_of_mem_mkGroupings (mem_sortedGroupings_iff.mp hg)) n
    rw [groupNumbersArr] at *
    rw [hmem, hlen]
    omega

theorem block_zip_eq_enum (c : Nat) (l : List Nat) :
    (List.replicate l.length c).zip (((List.range l.length).map (· + 1)).zip l) =
      l.enum.map (fun jn => (c, jn.1 + 1, jn.2)) := by
  apply List.ext_getElem
  · simp
  · intro n h₁ h₂
    simp [List.getElem_zip, List.getElem_replicate, List.getElem_map,
      List.getElem_range, List.getElem_enum]

theorem rows_filter_group :
    ∀ (gs : List (List String × List Nat)) (i g : Nat) (h : g < gs.length),
      ((groupNumbersFrom i gs).zip
          ((groupIndexesArr gs).zip (imageNumbersArr gs))).filter
          (fun t => decide (t.1 = i + g + 1)) =
        (gs.get ⟨g, h⟩).2.enum.map (fun jn => (i + g + 1, jn.1 + 1, jn.2)) := by
  intro gs
  induction gs with
  | nil =>
    intro i g h
    exact absurd h (by simp)
  | cons g₀ gs ih =>
    intro i g h
    have him : imageNumbersArr (g₀ :: gs) = g₀.2 ++ imageNumbersArr gs := rfl
    rw [groupNumbersFrom, groupIndexesArr, him,
      List.zip_append (by simp), List.zip_append (by simp), List.filter_append,
      block_zip_eq_enum]
    cases g with
    | zero =>
      have hblock : ((g₀.2.enum.map (fun jn => (i + 1, jn.1 + 1, jn.2))).filter
          (fun t => decide (t.1 = i + 0 + 1))) =
          g₀.2.enum.map (fun jn => (i + 1, jn.1 + 1, jn.2)) := by
        rw [List.filter_eq_self]
        intro t ht
        obtain ⟨jn, _, hjn⟩ := List.mem_map.mp ht
        rw [← hjn]
        exact decide_eq_true (by omega)
      have hrest : (((groupNumbersFrom (i + 1) gs).zip
          ((groupIndexesArr gs).zip (imageNumbersArr gs))).filter
          (fun t => decide (t.1 = i + 0 + 1))) = [] := by
        rw [List.filter_eq_nil_iff]
        rintro ⟨t₁, t₂⟩ ht
        have h₁ : t₁ ∈ groupNumbersFrom (i + 1) gs := (List.of_mem_zip ht).1
        have h₂ := le_of_mem_groupNumbersFrom gs (i + 1) t₁ h₁
        simp only [decide_eq_true_eq]
        omega
      rw [hblock, hrest, List.append_nil]
      have hidx : i + 0 + 1 = i + 1 := by omega
      rw [hidx]
      rfl
    | succ g' =>
      have hblock : ((g₀.2.enum.map (fun jn => (i + 1, jn.1 + 1, jn.2))).filter
          (fun t => decide (t.1 = i + (g' + 1) + 1))) = [] := by
        rw [List.filter_eq_nil_iff]
        intro t ht
        obtain ⟨jn, _, hjn⟩ := List.mem_map.mp ht
        rw [← hjn]
        simp only [decide_eq_true_eq]
        omega
      have hg' : g' < gs.length := by
        simpa using h
      have hrest := ih (i + 1) g' hg'
      have hidx : i + 1 + g' + 1 = i + (g' + 1) + 1 := by omega
      rw [hidx] at hrest
      rw [hblock, List.nil_append, hrest]
      rfl

/-- C3: within each group of the partition, the group indexes are exactly
1..count in order, attached to the group members in their original arrival
order; and on the spec's worked example ([(1,row=A),(2,row=B),(3,row=A)],
key "row") the result is ordering [1,3,2], group numbers [1,1,2] and group
indexes [1,2,1]. -/
theorem groupIndexes_within_group (records : List Record) (keys : List String)
    (g : Nat) (hg : g < (sortedGroupings records keys).length) :
    ((((partitionCore records keys).groupNumbers.zip
          (((partitionCore records keys).groupIndexes).zip
            ((partitionCore records keys).ordering))).filter
          (fun t => decide (t.1 = g + 1))).map (fun t => t.2.1) =
        (List.range ((sortedGroupings records keys).get ⟨g, hg⟩).2.length).map
          (· + 1)) ∧
      ((((partitionCore records keys).groupNumbers.zip
          (((partitionCore records keys).groupIndexes).zip
            ((partitionCore records keys).ordering))).filter
          (fun t => decide (t.1 = g + 1))).map (fun t => t.2.2) =
        (records.filter (fun x => decide (recordKey keys x =
            ((sortedGroupings records keys).get ⟨g, hg⟩).1))).map
          Record.imageNumber) ∧
      partitionCore exRecords ["row"] =
        { ordering := [1, 3, 2], groupNumbers := [1, 1, 2],
          groupIndexes := [1, 2, 1] } := by
  have hz := rows_filter_group (sortedGroupings records keys) 0 g hg
  rw [Nat.zero_add] at hz
  have hsnd := snd_of_mem_mkGroupings
    (mem_sortedGroupings_iff.mp
      (List.get_mem (sortedGroupings records keys) g hg))
  rw [partitionCore_eq]
  dsimp only
  rw [groupNumbersArr, hz]
  refine ⟨?_, ?_, by decide⟩
  · rw [List.map_map]
    have hcomp : ((fun t : Nat × Nat × Nat => t.2.1) ∘
        (fun jn : Nat × Nat => (g + 1, jn.1 + 1, jn.2))) =
        ((· + 1) ∘ Prod.fst) := rfl
    rw [hcomp, ← List.map_map, List.enum_map_fst]
  · rw [List.map_map]
    have hcomp : ((fun t : Nat × Nat × Nat => t.2.2) ∘
        (fun jn : Nat × Nat => (g + 1, jn.1 + 1, jn.2))) =
        (Prod.snd : Nat × Nat → Nat) := rfl
    rw [hcomp, List.enum_map_snd]
    exact hsnd.1

/-- Witness for C3 at the spec's worked example. -/
theorem groupIndexes_within_group_witness :
    0 < (sortedGroupings exRecords ["row"]).length ∧
      partitionCore exRecords ["row"] =
        { ordering := [1, 3, 2], groupNumbers := [1, 1, 2],
          groupIndexes := [1, 2, 1] } :=
  ⟨by decide, (groupIndexes_within_group exRecords ["row"] 0 (by decide)).2.2⟩

theorem dedup_replicate_append {α : Type} [DecidableEq α] (k : α) :
    ∀ (m : Nat) (rest : List α), 0 < m → k ∉ rest →
      (List.replicate m k ++ rest).dedup = k :: rest.dedup := by
  intro m
  induction m with
  | zero =>
    intro rest h _
    exact absurd h (by omega)
  | succ m ih =>
    intro rest _ hk
    cases m with
    | zero =>
      rw [List.replicate_one, List.singleton_append, List.dedup_cons_of_not_mem hk]
    | succ m' =>
      have hmem : k ∈ List.replicate (m' + 1) k ++ rest := by
        rw [List.mem_append, List.mem_replicate]
        exact Or.inl ⟨by omega, rfl⟩
      rw [List.replicate_succ, List.cons_append, List.dedup_cons_of_mem hmem,
        ih rest (by omega) hk]

theorem emptyKeys_mkGroupings (records : List Record) (hne : records ≠ []) :
    mkGroupings records [] = [([], records.map Record.imageNumber)] := by
  rw [mkGroupings]
  have h₁ : records.map (recordKey []) = List.replicate records.length [] := by
    rw [List.eq_replicate_iff]
    refine ⟨by simp, ?_⟩
    intro b hb
    obtain ⟨r, _, hr⟩ := List.mem_map.mp hb
    rw [← hr]
    rfl
  have h₂ : (List.replicate records.length ([] : List String)).dedup = [[]] := by
    have h := dedup_replicate_append ([] : List String) records.length []
      (List.length_pos.mpr hne) (by simp)
    simpa using h
  rw [h₁, h₂]
  have h₃ : records.filter (fun x => decide (recordKey [] x = [])) = records := by
    rw [List.filter_eq_self]
    intro a _
    exact decide_eq_true rfl
  rw [List.map_cons, List.map_nil, h₃]

/-- C8: with no grouping keys configured, the partition computation produces a
single group numbered 1 containing every record, assigns group indexes equal
to the original positions 1..N, and leaves the ordering unchanged. -/
theorem emptyKeys_single_group (records : List Record) (hne : records ≠ []) :
    partitionCore records [] =
      { ordering := records.map Record.imageNumber
        groupNumbers := List.replicate records.length 1
        groupIndexes := (List.range records.length).map (· + 1) } := by
  rw [partitionCore_eq, sortedGroupings, emptyKeys_mkGroupings records hne]
  have hs : sortGroupings [([], records.map Record.imageNumber)] =
      [([], records.map Record.imageNumber)] := rfl
  rw [hs]
  congr 1
  · simp [imageNumbersArr]
  · simp [groupNumbersArr, groupNumbersFrom]
  · simp [groupIndexesArr]

/-- Witness for C8 at the spec's worked example with empty keys. -/
theorem emptyKeys_single_group_witness :
    exRecords ≠ [] ∧
      partitionCore exRecords [] =
        { ordering := exRecords.map Record.imageNumber
          groupNumbers := List.replicate exRecords.length 1
          groupIndexes := (List.range exRecords.length).map (· + 1) } :=
  ⟨by decide, emptyKeys_single_group exRecords (by decide)⟩

/-- C4: when a configured grouping key is absent from the metadata of some
record, `prepare_run` fails on the configuration-error path of
`get_groupings` (groups.py:356-358, 394-396) before any group number is
assigned: the returned value carries no partial state. -/
theorem missingKey_configurationError (m : Measurements) (keys : List String)
    (k : String) (r : Record) (hk : k ∈ keys) (hr : r ∈ m.records)
    (hmiss : r.hasKey k = false) :
    prepareRun m keys = Except.error GroupsFailure.configurationError := by
  have hall : keys.all (fun x => featureOnAll m.records x) = false := by
    rw [List.all_eq_false]
    refine ⟨k, hk, ?_⟩
    rw [featureOnAll]
    intro hcontra
    rw [List.all_eq_true] at hcontra
    have h := hcontra r hr
    rw [hmiss] at h
    exact Bool.noConfusion h
  have hg : getGroupings m.records keys = none := by
    rw [getGroupings, hall]
    rfl
  rw [prepareRun, hg]

/-- Witness for C4: the second record lacks the configured key "row". -/
theorem missingKey_configurationError_witness :
    "row" ∈ ["row"] ∧
      Record.mk 2 [] ∈
        (Measurements.mk [⟨1, [("row", "A")]⟩, ⟨2, []⟩] [] [] []).records ∧
      (Record.mk 2 []).hasKey "row" = false ∧
      prepareRun (Measurements.mk [⟨1, [("row", "A")]⟩, ⟨2, []⟩] [] [] []) ["row"] =
        Except.error GroupsFailure.configurationError :=
  ⟨by decide, by decide, by decide,
    missingKey_configurationError _ ["row"] "row" ⟨2, []⟩ (by decide) (by decide)
      (by decide)⟩

/-- C5: on the empty record set the partition path fails with the
empty-input error (the `np.hstack` failure of groups.py:405 on a grouping
list with no groups) instead of returning a result. -/
theorem emptyRecords_emptyInput (m : Measurements) (keys : List String)
    (h : m.records = []) :
    prepareRun m keys = Except.error GroupsFailure.emptyInput := by
  have hg : getGroupings m.records keys = some [] := by
    rw [getGroupings, if_pos]
    · rw [h]
      rfl
    · rw [List.all_eq_true]
      intro k _
      rw [featureOnAll, h]
      rfl
  rw [prepareRun, hg]
  rfl

/-- Witness for C5 at the empty snapshot. -/
theorem emptyRecords_emptyInput_witness :
    (Measurements.mk [] [] [] []).records = [] ∧
      prepareRun (Measurements.mk [] [] [] []) ["row"] =
        Except.error GroupsFailure.emptyInput :=
  ⟨rfl, emptyRecords_emptyInput (Measurements.mk [] [] [] []) ["row"] rfl⟩

theorem find?_imageNumber_eq_some :
    ∀ (records : List Record), (records.map Record.imageNumber).Nodup →
      ∀ r ∈ records,
        records.find? (fun x => x.imageNumber == r.imageNumber) = some r := by
  intro records
  induction records with
  | nil =>
    intro _ r hr
    exact absurd hr (List.not_mem_nil r)
  | cons x xs ih =>
    intro hnd r hr
    rw [List.map_cons, List.nodup_cons] at hnd
    rcases List.mem_cons.mp hr with hrx | hrxs
    · subst hrx
      rw [List.find?_cons_of_pos xs (by simp)]
    · have hne : ¬((fun y : Record => y.imageNumber == r.imageNumber) x = true) := by
        simp only [beq_eq_false_iff_ne, Bool.not_eq_true, ne_eq]
        intro heq
        exact hnd.1 (heq ▸ List.mem_map_of_mem Record.imageNumber hrxs)
      rw [List.find?_cons_of_neg xs hne]
      exact ih hnd.2 r hrxs

theorem filterMap_map_recover {α β : Type} (G : β → Option α) (f : α → β) :
    ∀ l : List α, (∀ x ∈ l, G (f x) = some x) → (l.map f).filterMap G = l := by
  intro l
  induction l with
  | nil =>
    intro _
    rfl
  | cons x xs ih =>
    intro h
    rw [List.map_cons, List.filterMap_cons_some (h x (List.mem_cons_self x xs)),
      ih (fun y hy => h y (List.mem_cons_of_mem _ hy))]

/-- The records of the input laid out group-major (block of each sorted
GroupKey, members in arrival order); proof-side description of what the
canonical ordering traverses. -/
def fibersFlat (records : List Record) (keys : List String) : List Record :=
  ((sortedGroupings records keys).map
    (fun g => records.filter (fun x => decide (recordKey keys x = g.1)))).flatten

theorem imageNumbersArr_eq_fibersFlat (records : List Record) (keys : List String) :
    imageNumbersArr (sortedGroupings records keys) =
      (fibersFlat records keys).map Record.imageNumber := by
  rw [imageNumbersArr, fibersFlat, List.map_flatten, List.map_map]
  congr 1
  apply List.map_congr_left
  intro g hg
  exact (snd_of_mem_mkGroupings (mem_sortedGroupings_iff.mp hg)).1

theorem mem_records_of_mem_fibersFlat {records : List Record} {keys : List String}
    {r : Record} (h : r ∈ fibersFlat records keys) : r ∈ records := by
  rw [fibersFlat] at h
  obtain ⟨block, hblock, hr⟩ := List.mem_flatten.mp h
  obtain ⟨g, _, hfil⟩ := List.mem_map.mp hblock
  rw [← hfil] at hr
  exact (List.mem_filter.mp hr).1

theorem fibersFlat_perm (records : List Record) (keys : List String) :
    (fibersFlat records keys).Perm records := by
  rw [fibersFlat]
  have hsort : (((sortedGroupings records keys).map
      (fun g => records.filter (fun x => decide (recordKey keys x = g.1)))).flatten).Perm
      (((mkGroupings records keys).map
        (fun g => records.filter (fun x => decide (recordKey keys x = g.1)))).flatten) :=
    ((List.perm_insertionSort grpLe (mkGroupings records keys)).map _).flatten
  refine hsort.trans ?_
  have hmap : (mkGroupings records keys).map
      (fun g => records.filter (fun x => decide (recordKey keys x = g.1))) =
      ((records.map (recordKey keys)).dedup).map
        (fun kv => records.filter (fun x => decide (recordKey keys x = kv))) := by
    rw [← map_fst_mkGroupings records keys, List.map_map]
    rfl
  rw [hmap]
  exact fibers_flatten_perm records keys

theorem reorderRecords_eq_renumber (records : List Record) (keys : List String)
    (hnd : (records.map Record.imageNumber).Nodup) :
    reorderRecords records (partitionCore records keys).ordering =
      ((fibersFlat records keys).enum).map
        (fun jr => { jr.2 with imageNumber := jr.1 + 1 }) := by
  rw [reorderRecords, partitionCore_eq]
  have hord : imageNumbersArr (sortedGroupings records keys) =
      (fibersFlat records keys).map Record.imageNumber :=
    imageNumbersArr_eq_fibersFlat records keys
  dsimp only
  rw [hord, filterMap_map_recover _ _ _
    (fun x hx => find?_imageNumber_eq_some records hnd x
      (mem_records_of_mem_fibersFlat hx))]

/-- C6 (amended): the partition outcome is a deterministic function of the
snapshot, but `prepare_run` itself persists it: on success the stored records
are a reordering (a permutation up to renumbering — the metadata rows are
preserved) and the group-number/group-index columns and grouping tags hold
exactly the computed values. -/
theorem prepareRun_deterministic_effects (m : Measurements) (keys : List String)
    (m' : Measurements) (hnd : (m.records.map Record.imageNumber).Nodup)
    (h : prepareRun m keys = Except.ok m') :
    (m'.records.map Record.metadata).Perm (m.records.map Record.metadata) ∧
      m'.groupNumbers = (partitionCore m.records keys).groupNumbers ∧
      m'.groupIndexes = (partitionCore m.records keys).groupIndexes ∧
      m'.groupingTags = keys := by
  rw [prepareRun] at h
  cases hg : getGroupings m.records keys with
  | none =>
    rw [hg] at h
    exact absurd h (by simp)
  | some gs =>
    rw [hg] at h
    dsimp only at h
    cases hemp : gs.isEmpty with
    | true =>
      rw [if_pos hemp] at h
      exact absurd h (by simp)
    | false =>
      rw [if_neg (by rw [hemp]; exact fun hc => Bool.noConfusion hc)] at h
      have hinj := Except.ok.inj h
      rw [← hinj]
      refine ⟨?_, rfl, rfl, rfl⟩
      rw [reorderRecords_eq_renumber m.records keys hnd, List.map_map]
      have hcomp : (Record.metadata ∘
          fun jr : Nat × Record => { jr.2 with imageNumber := jr.1 + 1 }) =
          (Record.metadata ∘ Prod.snd) := rfl
      rw [hcomp, ← List.map_map, List.enum_map_snd]
      exact (fibersFlat_perm m.records keys).map Record.metadata

/-- Measurements snapshot of the worked example before prepare_run: no group
columns stored yet. -/
def exStore : Measurements := ⟨exRecords, [], [], []⟩

/-- The measurements snapshot the embedding of prepare_run produces from
`exStore` with key "row". -/
def exStoreAfter : Measurements :=
  ⟨[⟨1, [("row", "A")]⟩, ⟨2, [("row", "A")]⟩, ⟨3, [("row", "B")]⟩],
    [1, 1, 2], [1, 2, 1], ["row"]⟩

/-- Counterexample to C6 as stated: at the spec's worked example a successful
prepare_run returns a measurements store that differs from its input — the
group-number/group-index columns are written (add_all_measurements,
groups.py:426-427) and the records are reordered and renumbered
(reorder_image_measurements, groups.py:425), so the partitioner does persist
the assignments and reorder the backing store. -/
theorem prepareRun_writes_store :
    prepareRun exStore ["row"] = Except.ok exStoreAfter ∧
      exStoreAfter.groupNumbers ≠ exStore.groupNumbers ∧
      exStoreAfter.records ≠ exStore.records := by
  exact ⟨by decide, by decide, by decide⟩

/-- Witness for the amended C6 at the worked example. -/
theorem prepareRun_deterministic_effects_witness :
    (exStore.records.map Record.imageNumber).Nodup ∧
      ((exStoreAfter.records.map Record.metadata).Perm
          (exStore.records.map Record.metadata) ∧
        exStoreAfter.groupNumbers = (partitionCore exStore.records ["row"]).groupNumbers ∧
        exStoreAfter.groupIndexes = (partitionCore exStore.records ["row"]).groupIndexes ∧
        exStoreAfter.groupingTags = ["row"]) :=
  ⟨by decide,
    prepareRun_deterministic_effects exStore ["row"] exStoreAfter (by decide) (by decide)⟩

theorem map_recordKey_filter (records : List Record) (keys kv : List String) :
    ((records.filter (fun x => decide (recordKey keys x = kv))).map (recordKey keys)) =
      List.replicate
        (records.filter (fun x => decide (recordKey keys x = kv))).length kv := by
  rw [List.eq_replicate_iff]
  refine ⟨by simp, ?_⟩
  intro b hb
  obtain ⟨r, hr, hrk⟩ := List.mem_map.mp hb
  rw [← hrk]
  exact key_of_mem_fiber hr

theorem map_recordKey_renumber (l : List Record) (keys : List String) :
    ((l.enum.map (fun jr => { jr.2 with imageNumber := jr.1 + 1 })).map
        (recordKey keys)) = l.map (recordKey keys) := by
  rw [List.map_map]
  have hcomp : (recordKey keys ∘
      fun jr : Nat × Record => { jr.2 with imageNumber := jr.1 + 1 }) =
      (recordKey keys ∘ Prod.snd) := rfl
  rw [hcomp, ← List.map_map, List.enum_map_snd]

theorem map_recordKey_fibersFlat (records : List Record) (keys : List String) :
    (fibersFlat records keys).map (recordKey keys) =
      ((sortedGroupings records keys).map
        (fun g => List.replicate
          (records.filter (fun x => decide (recordKey keys x = g.1))).length
          g.1)).flatten := by
  rw [fibersFlat, List.map_flatten, List.map_map]
  congr 1
  apply List.map_congr_left
  intro g _
  exact map_recordKey_filter records keys g.1

theorem dedup_flatten_replicate {α : Type} [DecidableEq α] :
    ∀ bs : List (α × Nat), (bs.map Prod.fst).Nodup → (∀ b ∈ bs, 0 < b.2) →
      ((bs.map (fun b => List.replicate b.2 b.1)).flatten).dedup = bs.map Prod.fst := by
  intro bs
  induction bs with
  | nil =>
    intro _ _
    rfl
  | cons b bs ih =>
    intro hnd hpos
    rw [List.map_cons, List.flatten_cons, List.map_cons]
    have hmem : b.1 ∉ (bs.map (fun x => List.replicate x.2 x.1)).flatten := by
      intro hc
      obtain ⟨blk, hblk, hbm⟩ := List.mem_flatten.mp hc
      obtain ⟨x, hx, hxe⟩ := List.mem_map.mp hblk
      rw [← hxe, List.mem_replicate] at hbm
      exact (List.nodup_cons.mp hnd).1 (List.mem_map.mpr ⟨x, hx, hbm.2.symm⟩)
    rw [dedup_replicate_append b.1 b.2 _ (hpos b (List.mem_cons_self b bs)) hmem,
      ih (List.nodup_cons.mp hnd).2 (fun x hx => hpos x (List.mem_cons_of_mem _ hx))]

theorem flatten_fibers_of_blockwise {α κ : Type} [DecidableEq κ] (f : α → κ) :
    ∀ (bs : List (κ × Nat)) (zs : List α),
      (bs.map Prod.fst).Nodup →
      zs.map f = (bs.map (fun b => List.replicate b.2 b.1)).flatten →
      ((bs.map Prod.fst).map
          (fun kv => zs.filter (fun x => decide (f x = kv)))).flatten = zs := by
  intro bs
  induction bs with
  | nil =>
    intro zs _ hz
    rw [List.map_nil, List.flatten_nil] at hz
    rw [List.map_eq_nil_iff] at hz
    rw [hz]
    rfl
  | cons b bs ih =>
    intro zs hnd hz
    rw [List.map_cons, List.flatten_cons] at hz
    obtain ⟨zs₁, zs₂, hsplit, h₁, h₂⟩ := List.map_eq_append_iff.mp hz
    subst hsplit
    have factA : ∀ x ∈ zs₁, f x = b.1 := by
      intro x hx
      have hfx : f x ∈ List.replicate b.2 b.1 := h₁ ▸ List.mem_map_of_mem f hx
      exact (List.mem_replicate.mp hfx).2
    have factB : ∀ x ∈ zs₂, f x ∈ bs.map Prod.fst := by
      intro x hx
      have hfx : f x ∈ (bs.map (fun c => List.replicate c.2 c.1)).flatten :=
        h₂ ▸ List.mem_map_of_mem f hx
      obtain ⟨blk, hblk, hbm⟩ := List.mem_flatten.mp hfx
      obtain ⟨c, hc, hce⟩ := List.mem_map.mp hblk
      rw [← hce, List.mem_replicate] at hbm
      exact List.mem_map.mpr ⟨c, hc, hbm.2.symm⟩
    have factC : b.1 ∉ bs.map Prod.fst := (List.nodup_cons.mp hnd).1
    rw [List.map_cons, List.map_cons, List.flatten_cons]
    have hhead : (zs₁ ++ zs₂).filter (fun x => decide (f x = b.1)) = zs₁ := by
      rw [List.filter_append]
      have hz₁ : zs₁.filter (fun x => decide (f x = b.1)) = zs₁ :=
        List.filter_eq_self.mpr (fun x hx => decide_eq_true (factA x hx))
      have hz₂ : zs₂.filter (fun x => decide (f x = b.1)) = [] := by
        rw [List.filter_eq_nil_iff]
        intro x hx hcontra
        have heq : f x = b.1 := of_decide_eq_true hcontra
        exact factC (heq ▸ factB x hx)
      rw [hz₁, hz₂, List.append_nil]
    have htail : (bs.map Prod.fst).map
        (fun kv => (zs₁ ++ zs₂).filter (fun x => decide (f x = kv))) =
        (bs.map Prod.fst).map
          (fun kv => zs₂.filter (fun x => decide (f x = kv))) := by
      apply List.map_congr_left
      intro kv hkv
      rw [List.filter_append]
      have hz₁ : zs₁.filter (fun x => decide (f x = kv)) = [] := by
        rw [List.filter_eq_nil_iff]
        intro x hx hcontra
        have heq : f x = kv := of_decide_eq_true hcontra
        exact factC ((factA x hx) ▸ heq ▸ hkv)
      rw [hz₁, List.nil_append]
    rw [hhead, htail, ih zs₂ (List.nodup_cons.mp hnd).2 h₂]

theorem ordering_of_blockwise (zs : List Record) (keys : List String)
    (bs : List (List String × Nat))
    (hnd : (bs.map Prod.fst).Nodup)
    (hsorted : (bs.map Prod.fst).Pairwise (fun a b => keyLtB a b = true))
    (hpos : ∀ b ∈ bs, 0 < b.2)
    (hz : zs.map (recordKey keys) =
      (bs.map (fun b => List.replicate b.2 b.1)).flatten) :
    (partitionCore zs keys).ordering = zs.map Record.imageNumber := by
  rw [partitionCore_eq]
  dsimp only
  have hdedup : (zs.map (recordKey keys)).dedup = bs.map Prod.fst := by
    rw [hz]
    exact dedup_flatten_replicate bs hnd hpos
  rw [sortedGroupings, mkGroupings, hdedup]
  have hsort : ((bs.map Prod.fst).map
      (fun kv => (kv, (zs.filter (fun x => decide (recordKey keys x = kv))).map
        Record.imageNumber))).Pairwise grpLe := by
    rw [List.pairwise_map]
    exact hsorted.imp (fun hab => keyLtB_asymm _ _ hab)
  rw [sortGroupings, List.Sorted.insertionSort_eq hsort]
  rw [imageNumbersArr, List.map_map]
  have hcomp : (Prod.snd ∘ fun kv =>
      (kv, (zs.filter (fun x => decide (recordKey keys x = kv))).map
        Record.imageNumber)) =
      (List.map Record.imageNumber ∘
        fun kv => zs.filter (fun x => decide (recordKey keys x = kv))) := rfl
  rw [hcomp, ← List.map_map, ← List.map_flatten,
    flatten_fibers_of_blockwise (recordKey keys) bs zs hnd hz]

/-- C7: re-running the partition on the store already reordered by a first
run, with the same grouping keys, yields the identity permutation: the new
ordering lists the stored record identifiers 1..N in storage order. -/
theorem partition_idempotent (records : List Record) (keys : List String)
    (hne : records ≠ []) (hnd : (records.map Record.imageNumber).Nodup) :
    (partitionCore
        (reorderRecords records (partitionCore records keys).ordering)
        keys).ordering =
      (reorderRecords records (partitionCore records keys).ordering).map
        Record.imageNumber ∧
      (reorderRecords records (partitionCore records keys).ordering).map
        Record.imageNumber = (List.range records.length).map (· + 1) := by
  have _h := hne
  have hre := reorderRecords_eq_renumber records keys hnd
  constructor
  · apply ordering_of_blockwise _ keys
      ((sortedGroupings records keys).map
        (fun g => (g.1,
          (records.filter (fun x => decide (recordKey keys x = g.1))).length)))
    · rw [List.map_map]
      exact map_fst_sortedGroupings_nodup records keys
    · rw [List.map_map]
      exact map_fst_sortedGroupings_pairwise records keys
    · intro b hb
      obtain ⟨g, hg, hge⟩ := List.mem_map.mp hb
      rw [← hge]
      have hsnd := snd_of_mem_mkGroupings (mem_sortedGroupings_iff.mp hg)
      have hne₂ := snd_ne_nil_of_mem_mkGroupings (mem_sortedGroupings_iff.mp hg)
      rw [hsnd.1] at hne₂
      have : records.filter (fun x => decide (recordKey keys x = g.1)) ≠ [] := by
        intro hc
        rw [hc] at hne₂
        exact hne₂ rfl
      exact List.length_pos.mpr this
    · rw [hre, map_recordKey_renumber, map_recordKey_fibersFlat, List.map_map]
      rfl
  · rw [hre, List.map_map]
    have hcomp : (Record.imageNumber ∘
        fun jr : Nat × Record => { jr.2 with imageNumber := jr.1 + 1 }) =
        ((· + 1) ∘ Prod.fst) := rfl
    rw [hcomp, ← List.map_map, List.enum_map_fst,
      (fibersFlat_perm records keys).length_eq]

/-- Witness for C7 at the spec's worked example. -/
theorem partition_idempotent_witness :
    (exRecords ≠ [] ∧ (exRecords.map Record.imageNumber).Nodup) ∧
      (partitionCore
          (reorderRecords exRecords (partitionCore exRecords ["row"]).ordering)
          ["row"]).ordering =
        (reorderRecords exRecords (partitionCore exRecords ["row"]).ordering).map
          Record.imageNumber :=
  ⟨⟨by decide, by decide⟩,
    (partition_idempotent exRecords ["row"] (by decide) (by decide)).1⟩

/-- Grayscale image as RescaleIntensity touches it: the pixel intensities
(exact rationals standing in for the stored float values), the effective mask
`Image.mask` (all-true when no explicit mask is set), and `has_mask`. -/
structure CPImage where
  pixelData : List ℚ
  mask : List Bool
  hasMask : Bool
deriving DecidableEq

/-- The masked selection `pixel_data[mask]`. -/
def maskedPixels (img : CPImage) : List ℚ :=
  ((img.pixelData.zip img.mask).filter (fun pm => pm.2)).map Prod.fst

/-- Failure modes of the embedded RescaleIntensity fragments: `valueError`
models a numpy reduction over an empty selection raising, `zeroDivision`
models the explicit ZeroDivisionError of `RescaleIntensity.divide`
(rescaleintensity.py:350-351). -/
inductive RescaleFailure
  | valueError
  | zeroDivision
deriving DecidableEq

/-- Per-image handling of the group-wide maximum in
`RescaleIntensity.prepare_group` (rescaleintensity.py:246-251): when wanted,
the per-image maximum is computed over the masked selection if `has_mask`
(and then discarded — the running value is updated only in the else branch),
otherwise over the full array, updating the running value. -/
def stepHigh (wantsHighAll : Bool) (img : CPImage) (maxValue : Option ℚ) :
    Except RescaleFailure (Option ℚ) :=
  if wantsHighAll then
    if img.hasMask then
      match (maskedPixels img).max? with
      | none => .error .valueError
      | some _ => .ok maxValue
    else
      match img.pixelData.max? with
      | none => .error .valueError
      | some vmax => .ok (some (match maxValue with
          | none => vmax
          | some m => max m vmax))
  else .ok maxValue

/-- Per-image handling of the group-wide minimum in
`RescaleIntensity.prepare_group` (rescaleintensity.py:253-258), symmetric to
`stepHigh`. -/
def stepLow (wantsLowAll : Bool) (img : CPImage) (minValue : Option ℚ) :
    Except RescaleFailure (Option ℚ) :=
  if wantsLowAll then
    if img.hasMask then
      match (maskedPixels img).min? with
      | none => .error .valueError
      | some _ => .ok minValue
    else
      match img.pixelData.min? with
      | none => .error .valueError
      | some vmin => .ok (some (match minValue with
          | none => vmin
          | some m => min m vmin))
  else .ok minValue

/-- The image loop of `RescaleIntensity.prepare_group`
(rescaleintensity.py:238-258): accumulates (min_value, max_value), both
starting as None. -/
def scanLoop (wantsHighAll wantsLowAll : Bool) :
    List CPImage → Option ℚ × Option ℚ →
      Except RescaleFailure (Option ℚ × Option ℚ)
  | [], acc => .ok acc
  | img :: rest, acc =>
    match stepHigh wantsHighAll img acc.2 with
    | .error e => .error e
    | .ok maxv =>
      match stepLow wantsLowAll img acc.1 with
      | .error e => .error e
      | .ok minv => scanLoop wantsHighAll wantsLowAll rest (minv, maxv)

/-- Embedding of `RescaleIntensity.prepare_group`
(rescaleintensity.py:215-263): returns the stored automatic (minimum,
maximum) updates — outer `none` when the respective setting is not
group-wide (nothing stored), `some v` for the value handed to
set_automatic_minimum / set_automatic_maximum (`v` is None when no image
contributed). -/
def prepare_group (wantsHighAll wantsLowAll : Bool) (images : List CPImage) :
    Except RescaleFailure (Option (Option ℚ) × Option (Option ℚ)) :=
  if !wantsHighAll && !wantsLowAll then .ok (none, none)
  else
    match scanLoop wantsHighAll wantsLowAll images (none, none) with
    | .error e => .error e
    | .ok (minv, maxv) =>
      .ok (if wantsLowAll then some minv else none,
        if wantsHighAll then some maxv else none)

theorem stepHigh_masked (wantsHighAll : Bool) (img : CPImage) (maxValue : Option ℚ)
    (hm : img.hasMask = true) (hne : maskedPixels img ≠ []) :
    stepHigh wantsHighAll img maxValue = .ok maxValue := by
  rw [stepHigh]
  cases wantsHighAll with
  | false => rfl
  | true =>
    rw [if_pos rfl, if_pos hm]
    cases hmax : (maskedPixels img).max? with
    | none => exact absurd (List.max?_eq_none_iff.mp hmax) hne
    | some v => rfl

theorem stepLow_masked (wantsLowAll : Bool) (img : CPImage) (minValue : Option ℚ)
    (hm : img.hasMask = true) (hne : maskedPixels img ≠ []) :
    stepLow wantsLowAll img minValue = .ok minValue := by
  rw [stepLow]
  cases wantsLowAll with
  | false => rfl
  | true =>
    rw [if_pos rfl, if_pos hm]
    cases hmin : (maskedPixels img).min? with
    | none => exact absurd (List.min?_eq_none_iff.mp hmin) hne
    | some v => rfl

theorem scanLoop_filter (wantsHighAll wantsLowAll : Bool) :
    ∀ (images : List CPImage) (acc : Option ℚ × Option ℚ),
      (∀ img ∈ images, img.hasMask = true → maskedPixels img ≠ []) →
      scanLoop wantsHighAll wantsLowAll images acc =
        scanLoop wantsHighAll wantsLowAll
          (images.filter (fun i => !i.hasMask)) acc := by
  intro images
  induction images with
  | nil =>
    intro acc _
    rfl
  | cons img rest ih =>
    intro acc hmask
    have hrest : ∀ i ∈ rest, i.hasMask = true → maskedPixels i ≠ [] :=
      fun i hi => hmask i (List.mem_cons_of_mem _ hi)
    cases hm : img.hasMask with
    | true =>
      have hne := hmask img (List.mem_cons_self img rest) hm
      rw [List.filter_cons_of_neg (by rw [hm]; exact fun hc => Bool.noConfusion hc),
        scanLoop, stepHigh_masked wantsHighAll img acc.2 hm hne,
        stepLow_masked wantsLowAll img acc.1 hm hne]
      exact ih acc hrest
    | false =>
      rw [List.filter_cons_of_pos (by rw [hm]; rfl), scanLoop, scanLoop]
      cases stepHigh wantsHighAll img acc.2 with
      | error e => rfl
      | ok maxv =>
        cases stepLow wantsLowAll img acc.1 with
        | error e => rfl
        | ok minv => exact ih (minv, maxv) hrest

/-- C9: in prepare_group only images without a mask contribute to the stored
group-wide extrema — the computation equals the one run on the unmasked
images alone — and when every image of the group carries a mask the stored
automatic maximum and minimum are both None. -/
theorem prepare_group_ignores_masked (wantsHighAll wantsLowAll : Bool)
    (images : List CPImage)
    (hmask : ∀ img ∈ images, img.hasMask = true → maskedPixels img ≠ []) :
    prepare_group wantsHighAll wantsLowAll images =
        prepare_group wantsHighAll wantsLowAll
          (images.filter (fun i => !i.hasMask)) ∧
      ((∀ img ∈ images, img.hasMask = true) →
        prepare_group true true images = .ok (some none, some none)) := by
  constructor
  · rw [prepare_group, prepare_group,
      scanLoop_filter wantsHighAll wantsLowAll images (none, none) hmask]
  · intro hall
    have hfil : images.filter (fun i => !i.hasMask) = [] := by
      rw [List.filter_eq_nil_iff]
      intro img hi
      rw [hall img hi]
      exact fun hc => Bool.noConfusion hc
    rw [prepare_group, scanLoop_filter true true images (none, none) hmask, hfil]
    rfl

/-- Witness for C9 on a group consisting of a single masked image. -/
theorem prepare_group_ignores_masked_witness :
    (∀ img ∈ [CPImage.mk [1, 2] [true, false] true],
        img.hasMask = true → maskedPixels img ≠ []) ∧
      prepare_group true true [CPImage.mk [1, 2] [true, false] true] =
        .ok (some none, some none) :=
  ⟨by decide,
    (prepare_group_ignores_masked true true
        [CPImage.mk [1, 2] [true, false] true] (by decide)).2 (by decide)⟩

/-- Embedding of `RescaleIntensity.divide` (rescaleintensity.py:349-353):
raises ZeroDivisionError exactly on a zero divisor, otherwise divides
elementwise. -/
def divide (data : List ℚ) (value : ℚ) : Except RescaleFailure (List ℚ) :=
  if value = 0 then .error .zeroDivision
  else .ok (data.map (fun x => x / value))

/-- Embedding of `RescaleIntensity.scale_by_image_maximum`
(rescaleintensity.py:379-399): returns the input pixels unchanged when the
masked maximum is 0, otherwise multiplies by the reference maximum and
divides by the input maximum. -/
def scale_by_image_maximum (input reference : CPImage) :
    Except RescaleFailure (List ℚ) :=
  match (maskedPixels input).max? with
  | none => .error .valueError
  | some image_max =>
    if image_max = 0 then .ok input.pixelData
    else
      match (maskedPixels reference).max? with
      | none => .error .valueError
      | some reference_max =>
        divide (input.pixelData.map (fun x => x * reference_max)) image_max

/-- C10: divide raises ZeroDivisionError iff the divisor is 0, otherwise it
returns the elementwise quotient; scale_by_image_maximum never reaches the
zero-divisor error, because a zero masked maximum returns the input pixels
unchanged. -/
theorem divide_zero_iff_and_scale_safe (data : List ℚ) (value : ℚ) :
    (divide data value = .error .zeroDivision ↔ value = 0) ∧
      (value ≠ 0 → divide data value = .ok (data.map (fun x => x / value))) ∧
      (∀ input reference : CPImage,
        scale_by_image_maximum input reference ≠ .error .zeroDivision) ∧
      (∀ input reference : CPImage, (maskedPixels input).max? = some 0 →
        scale_by_image_maximum input reference = .ok input.pixelData) := by
  refine ⟨?_, ?_, ?_, ?_⟩
  · constructor
    · intro h
      by_contra hv
      rw [divide, if_neg hv] at h
      exact Except.noConfusion h
    · intro hv
      rw [divide, if_pos hv]
  · intro hv
    rw [divide, if_neg hv]
  · intro input reference
    unfold scale_by_image_maximum
    cases hmax : (maskedPixels input).max? with
    | none =>
      dsimp only
      exact fun hc => RescaleFailure.noConfusion (Except.error.inj hc)
    | some image_max =>
      dsimp only
      by_cases hz : image_max = 0
      · rw [if_pos hz]
        exact fun hc => Except.noConfusion hc
      · rw [if_neg hz]
        cases href : (maskedPixels reference).max? with
        | none =>
          dsimp only
          exact fun hc => RescaleFailure.noConfusion (Except.error.inj hc)
        | some reference_max =>
          dsimp only
          rw [divide, if_neg hz]
          exact fun hc => Except.noConfusion hc
  · intro input reference hmax
    unfold scale_by_image_maximum
    rw [hmax]
    dsimp only
    rw [if_pos rfl]

/-- Witness for C10 at a concrete array and divisor. -/
theorem divide_zero_iff_and_scale_safe_witness :
    (2 : ℚ) ≠ 0 ∧ divide [1, 2] 2 = .ok ([1, 2].map (fun x => x / 2)) :=
  ⟨by decide, (divide_zero_iff_and_scale_safe [1, 2] 2).2.1 (by decide)⟩

end CP
